import Mathlib

/-!
Verification of the Q-learning tic-tac-toe engine (`src/main.rs`).

The Rust source is shallowly embedded: the 3×3 grid becomes a function
`Fin 3 → Fin 3 → Cell`, `f64` values become `ℚ`, the two `HashMap`s of the
Q-table become association lists with `HashMap`-style insert/lookup
semantics, and the ambient random number generator becomes explicit
oracle-stream arguments.  The IEEE `NEG_INFINITY` seed of the fold in
`update_q_value` is modelled by `Option ℚ` (with `none` standing for the
minus-infinity accumulator); an update that would produce a minus-infinity
`max_q_next` is reported as an explicit error value, and we prove it never
occurs for tables built through the program's own table operations.
-/

namespace QTTT

/-- Cell of the tic-tac-toe grid (`enum Cell`). -/
inductive Cell where
  | Empty
  | X
  | O
deriving DecidableEq, Repr

/-- A player is just a marker (`struct Player`). -/
structure Player where
  marker : Cell
deriving DecidableEq, Repr

/-- Opponent of a player (`Player::opponent`), including the degenerate
`Empty ↦ Empty` case of the source. -/
def Player.opponent (p : Player) : Player :=
  if p.marker = Cell.X then ⟨Cell.O⟩
  else if p.marker = Cell.O then ⟨Cell.X⟩
  else ⟨Cell.Empty⟩

/-- Result flags of a move (`struct MoveStatus`). -/
structure MoveStatus where
  move_successful : Bool
  game_over : Bool
deriving DecidableEq, Repr

/-- The 3×3 grid, indexed as `grid row col` (`[[Cell; 3]; 3]`). -/
abbrev Grid := Fin 3 → Fin 3 → Cell

/-- The board state (`struct Board`): grid, the fixed two-player array and
the index of the player to move. -/
structure Board where
  grid : Grid
  players : Fin 2 → Player
  current_player : Fin 2

/-- The player array `[Player { marker: X }, Player { marker: O }]` that
`Board::new` always installs. -/
def stdPlayers : Fin 2 → Player :=
  fun i => if i.val = 0 then ⟨Cell.X⟩ else ⟨Cell.O⟩

/-- The board produced by `Board::new`, with the random choice of the first
mover passed in explicitly. -/
def Board.newWith (p : Fin 2) : Board :=
  { grid := fun _ _ => Cell.Empty, players := stdPlayers, current_player := p }

/-- Writing a marker into one cell (`self.grid[row][col] = marker`). -/
def setCell (g : Grid) (r c : Fin 3) (m : Cell) : Grid :=
  fun i j => if i = r ∧ j = c then m else g i j

/-- Turn flip (`Board::switch_turn`): `current_player = 1 - current_player`. -/
def switch_turn (b : Board) : Board :=
  { b with current_player := ⟨1 - b.current_player.val, by omega⟩ }

/-- The player about to move (`Board::get_current_player`). -/
def get_current_player (b : Board) : Player :=
  b.players b.current_player

/-- Winner detection (`Board::check_winner`): the row/column interleaved
scan of the source followed by the two diagonals, returning the first
fully-marked line found. -/
def check_winner (b : Board) : Option Cell :=
  if b.grid 0 0 ≠ Cell.Empty ∧ b.grid 0 1 = b.grid 0 0 ∧ b.grid 0 2 = b.grid 0 1 then
    some (b.grid 0 0)
  else if b.grid 0 0 ≠ Cell.Empty ∧ b.grid 1 0 = b.grid 0 0 ∧ b.grid 2 0 = b.grid 1 0 then
    some (b.grid 0 0)
  else if b.grid 1 0 ≠ Cell.Empty ∧ b.grid 1 1 = b.grid 1 0 ∧ b.grid 1 2 = b.grid 1 1 then
    some (b.grid 1 0)
  else if b.grid 0 1 ≠ Cell.Empty ∧ b.grid 1 1 = b.grid 0 1 ∧ b.grid 2 1 = b.grid 1 1 then
    some (b.grid 0 1)
  else if b.grid 2 0 ≠ Cell.Empty ∧ b.grid 2 1 = b.grid 2 0 ∧ b.grid 2 2 = b.grid 2 1 then
    some (b.grid 2 0)
  else if b.grid 0 2 ≠ Cell.Empty ∧ b.grid 1 2 = b.grid 0 2 ∧ b.grid 2 2 = b.grid 1 2 then
    some (b.grid 0 2)
  else if b.grid 0 0 ≠ Cell.Empty ∧ b.grid 1 1 = b.grid 0 0 ∧ b.grid 2 2 = b.grid 1 1 then
    some (b.grid 0 0)
  else if b.grid 0 2 ≠ Cell.Empty ∧ b.grid 1 1 = b.grid 0 2 ∧ b.grid 2 0 = b.grid 1 1 then
    some (b.grid 0 2)
  else
    none

/-- Row-major flattening of the grid (`grid.iter().flatten()`). -/
def flatten (g : Grid) : List Cell :=
  [g 0 0, g 0 1, g 0 2, g 1 0, g 1 1, g 1 2, g 2 0, g 2 1, g 2 2]

/-- Draw detection (`Board::is_draw`): every cell non-empty. -/
def is_draw (b : Board) : Bool :=
  (flatten b.grid).all (fun x => x ≠ Cell.Empty)

/-- Terminal detection (`Board::is_game_over`). -/
def is_game_over (b : Board) : Bool × Option Cell :=
  let winner := check_winner b
  (winner.isSome || is_draw b, winner)

/-- One move (`Board::make_move`): on an empty target cell place the current
player's marker, flip the turn and evaluate terminal status; on an occupied
cell return `(false, false, None)` without touching the board.  The updated
board is returned as the first component (the Rust method mutates `self`). -/
def make_move (b : Board) (r c : Fin 3) : Board × MoveStatus × Option Cell :=
  if b.grid r c = Cell.Empty then
    let m := (b.players b.current_player).marker
    let b1 := switch_turn { b with grid := setCell b.grid r c m }
    let (go, w) := is_game_over b1
    (b1, ⟨true, go⟩, w)
  else
    (b, ⟨false, false⟩, none)

/-- Single-cell rendering used by the `Display` instance of `Cell`. -/
def cellStr : Cell → String
  | Cell.Empty => "-"
  | Cell.X => "X"
  | Cell.O => "O"

/-- The state fingerprint (`Board::board_state`): the nine cells in
row-major order rendered and joined to one string. -/
def board_state (b : Board) : String :=
  String.join ((flatten b.grid).map cellStr)

/-- The fixed row-major coordinate list `total_moves` of the source. -/
def totalMoves : List (Fin 3 × Fin 3) :=
  [(0, 0), (0, 1), (0, 2), (1, 0), (1, 1), (1, 2), (2, 0), (2, 1), (2, 2)]

/-- Legal moves (`Board::available_moves`): the source zips the coordinate
list with 0/1 emptiness flags computed from the flattened grid and keeps
the coordinates flagged 1. -/
def available_moves (b : Board) : List (Fin 3 × Fin 3) :=
  let possible_moves := (flatten b.grid).map (fun x =>
    match x with
    | Cell.Empty => 1
    | _ => 0)
  ((totalMoves.zip possible_moves).filter (fun p => p.2 == 1)).map Prod.fst

/-- Body of the scan of `Board::find_blocking_move`: for each candidate
position, clone the board, flip the turn, play the position as the opponent
and keep the position if the resulting winner is that opponent. -/
def fbmAux (b : Board) : List (Fin 3 × Fin 3) → Option (Fin 3 × Fin 3)
  | [] => none
  | pos :: rest =>
    let temp_board := switch_turn b
    let current_player_marker := (get_current_player temp_board).marker
    match (make_move temp_board pos.1 pos.2).2.2 with
    | some w => if w = current_player_marker then some pos else fbmAux b rest
    | none => fbmAux b rest

/-- Blocking-move search (`Board::find_blocking_move`). -/
def find_blocking_move (b : Board) : Option (Fin 3 × Fin 3) :=
  fbmAux b (available_moves b)

/-- Inner map of the Q-table: action fingerprint to value
(`HashMap<String, f64>`), as an association list. -/
abbrev ActionMap := List (String × ℚ)

/-- The Q-table (`HashMap<String, HashMap<String, f64>>`). -/
abbrev QTable := List (String × ActionMap)

/-- Key update with `HashMap::insert` semantics: replace the binding in
place if the key is present, append it otherwise. -/
def alinsert {β : Type} (k : String) (v : β) : List (String × β) → List (String × β)
  | [] => [(k, v)]
  | (k', v') :: rest => if k' = k then (k, v) :: rest else (k', v') :: alinsert k v rest

/-- The learning agent (`struct QLearningAgent`). -/
structure QLearningAgent where
  q_table : QTable
  alpha : ℚ
  gamma : ℚ
  epsilon : ℚ
  train : Bool
deriving DecidableEq, Repr

/-- Fresh agent (`QLearningAgent::new`). -/
def QLearningAgent.new (alpha gamma epsilon : ℚ) : QLearningAgent :=
  { q_table := [], alpha := alpha, gamma := gamma, epsilon := epsilon, train := true }

/-- Table read (`QLearningAgent::get_q_value`): the two `entry().or_insert`
steps materialise the state entry (with an empty inner map) and the action
entry (with value `0.0`) when absent, and the read value is returned with
the updated agent. -/
def get_q_value (ag : QLearningAgent) (state action : String) : ℚ × QLearningAgent :=
  let inner := (List.lookup state ag.q_table).getD []
  let v := (List.lookup action inner).getD 0
  (v, { ag with q_table := alinsert state (alinsert action v inner) ag.q_table })

/-- The fold `values().fold(NEG_INFINITY, f64::max)`, with `none` standing
for the minus-infinity accumulator. -/
def foldMaxNeg (l : List ℚ) : Option ℚ :=
  l.foldl (fun acc v =>
    match acc with
    | none => some v
    | some m => some (max m v)) none

/-- Tail of the TD update once `max_q_next` is known: read the old value
through `get_q_value` (materialising the entry) and store
`old + α·(reward + γ·max_q_next − old)`. -/
def updateGo (ag : QLearningAgent) (state action : String) (reward max_q_next : ℚ) :
    QLearningAgent :=
  let (old_q_value, ag1) := get_q_value ag state action
  let new_q_value := old_q_value + ag.alpha * (reward + ag.gamma * max_q_next - old_q_value)
  { ag1 with
    q_table :=
      alinsert state
        (alinsert action new_q_value ((List.lookup state ag1.q_table).getD []))
        ag1.q_table }

/-- TD update (`QLearningAgent::update_q_value`): computes `max_q_next`
from the next state's recorded actions via the `NEG_INFINITY` fold,
defaulting to `0.0` when the next-state key is absent (`unwrap_or(0.0)`),
then stores the revised value through `updateGo`.  The result is `none`
exactly when the next-state key is present with an empty inner map, in
which case the Rust fold would produce the IEEE value `-∞`, which `ℚ`
cannot represent; the table invariant proved below rules this case out. -/
def update_q_value (ag : QLearningAgent) (state action : String) (reward : ℚ)
    (next_state : String) : Option QLearningAgent :=
  match (List.lookup next_state ag.q_table).map (fun actions => foldMaxNeg (actions.map Prod.snd)) with
  | some none => none
  | none => some (updateGo ag state action reward 0)
  | some (some mx) => some (updateGo ag state action reward mx)

/-- Action fingerprint (`format!("{},{}", action.0, action.1)`). -/
def fmtAction (a : Fin 3 × Fin 3) : String :=
  toString a.1.val ++ "," ++ toString a.2.val

/-- One step's worth of random-number-generator output: the uniform `[0,1)`
draw used for the exploration test and the index drawn by
`available_moves.choose`. -/
structure Rand where
  val : ℚ
  idx : Nat

/-- Uniform choice from a list (`choose`), driven by an explicit index. -/
def chooseRand {α : Type} (l : List α) (idx : Nat) : Option α :=
  l[idx % l.length]?

/-- The `max_by` scan of the exploitation branch: Rust's `max_by` keeps the
later element on ties, i.e. it folds keeping the accumulator only when it
compares strictly greater. -/
def maxByLast (actions : ActionMap) : List (Fin 3 × Fin 3) → Option (Fin 3 × Fin 3)
  | [] => none
  | x :: xs =>
    some (xs.foldl (fun best y =>
      if (List.lookup (fmtAction best) actions).getD 0 > (List.lookup (fmtAction y) actions).getD 0
      then best else y) x)

/-- Action selection (`QLearningAgent::choose_action`).  Returns the chosen
move plus the `is_blocking_move` and `explore` flags.  `none` models the
`unwrap` panics on an empty move list. -/
def choose_action (ag : QLearningAgent) (state : String) (available_moves : List (Fin 3 × Fin 3))
    (blocking_move : Option (Fin 3 × Fin 3)) (r : Rand) : Option ((Fin 3 × Fin 3) × Bool × Bool) :=
  if blocking_move.isSome = true ∧ ag.train = true then
    blocking_move.map (fun b => (b, true, false))
  else if r.val < ag.epsilon ∧ ag.train = true then
    (chooseRand available_moves r.idx).map (fun a => (a, false, true))
  else
    match List.lookup state ag.q_table with
    | some actions => (maxByLast actions available_moves).map (fun a => (a, false, false))
    | none => (chooseRand available_moves r.idx).map (fun a => (a, false, false))

/-- Failure modes of the training loop in the embedding.
`assertionFailed` is the source's defensive
`assert!(state_history.len() > 2, ...)`; `emptyMoves` is an `unwrap`
panic on an empty move list or empty action history; `negInfinity` is the
unrepresentable `-∞` `max_q_next` described at `update_q_value`;
`outOfFuel` only signals that the supplied recursion fuel ran out. -/
inductive TrainError where
  | assertionFailed
  | emptyMoves
  | negInfinity
  | outOfFuel
deriving DecidableEq, Repr

/-- The immediate reward of one training transition (the inline reward
computation of `train_q_learning`): `state` is the pre-move fingerprint
whose `'-'` characters are counted for the sparsity test, `game` the
post-move board, `marker` the marker of the mover who just moved and
`is_blocking_move` the flag returned by `choose_action`. -/
def stepReward (state : String) (game : Board) (marker : Cell) (is_blocking_move : Bool) : ℚ :=
  let empty_cells := (state.toList.filter (fun ch => ch = '-')).length
  let blocking_reward : ℚ := if empty_cells > 5 then 9/10 else 2/5
  if (check_winner game).getD Cell.Empty = marker then 1
  else if is_blocking_move then blocking_reward
  else if is_draw game then 3/10
  else 0

/-- The backward credit-propagation pass (the `state_history.windows(2)`
loop): each consecutive state pair gets one TD update with the single
action fingerprint `action_val`; after every update the propagation reward
is re-assigned to `min(α·0.7, 0.1)`. -/
def propagate (ag : QLearningAgent) (action_val : String) (reward : ℚ) :
    List String → Except TrainError QLearningAgent
  | s0 :: s1 :: rest =>
    match update_q_value ag s0 action_val reward s1 with
    | some ag2 => propagate ag2 action_val (min (ag2.alpha * (7/10)) (1/10)) (s1 :: rest)
    | none => .error .negInfinity
  | _ => .ok ag

/-- The terminal branch of the episode loop: assert the history length,
pop the last action without using it, and when the winner is the previous
mover run the propagation pass with starting reward `0.7`, using the new
last action of the history as the single propagated fingerprint. -/
def terminalUpdate (ag : QLearningAgent) (winner : Option Cell) (prevMarker : Cell)
    (state_history action_history : List String) : Except TrainError QLearningAgent :=
  if state_history.length > 2 then
    let ah1 := action_history.dropLast
    if winner.getD Cell.Empty = prevMarker then
      match ah1.getLast? with
      | some action_val => propagate ag action_val (7/10) state_history
      | none => .error .emptyMoves
    else .ok ag
  else .error .assertionFailed

/-- The per-episode `loop` of `train_q_learning`, with explicit recursion
fuel and the per-step random draws supplied by the stream `rands`
(consumed at positions `k`, `k+1`, ...). -/
def episodeLoop (rands : Nat → Rand) : Nat → QLearningAgent → Board →
    List String → List String → Nat → Except TrainError QLearningAgent
  | 0, _, _, _, _, _ => .error .outOfFuel
  | fuel + 1, ag, game, state_history, action_history, k =>
    let current_player := get_current_player game
    let prev_player := current_player.opponent
    let gw := is_game_over game
    if gw.1 then
      terminalUpdate ag gw.2 prev_player.marker state_history action_history
    else
      let state := board_state game
      let sh := state_history ++ [state]
      let moves := available_moves game
      let blocking_move := find_blocking_move game
      match choose_action ag state moves blocking_move (rands k) with
      | none => .error .emptyMoves
      | some (action, is_blocking_move, _explore) =>
        let action_hash := fmtAction action
        let game2 := (make_move game action.1 action.2).1
        let ah := action_history ++ [action_hash]
        let reward := stepReward state game2 current_player.marker is_blocking_move
        let next_state := board_state game2
        match update_q_value ag state action_hash reward next_state with
        | none => .error .negInfinity
        | some ag2 => episodeLoop rands fuel ag2 game2 sh ah (k + 1)

/-- The constant `TRAIN_EPISODE` of the source. -/
def TRAIN_EPISODE : Nat := 300000

/-- Epsilon after episode `i` (the assignment at the bottom of the episode
loop): linear decay from the captured starting value toward the floor
`0.1` over `TRAIN_EPISODE`, clamped at the floor. -/
def epsilonAfter (epsilon_start : ℚ) (i : Nat) : ℚ :=
  max (epsilon_start - (i : ℚ) * (epsilon_start - 1/10) / (TRAIN_EPISODE : ℚ)) (1/10)

/-- The episode-indexed training loop of `train_q_learning`: runs the
remaining episodes starting at episode index `i`, each from a fresh board
whose first mover is `coins i`, then overwrites `epsilon` from the formula
of the source.  `epsilon_start` is the value captured before the loop. -/
def trainGo (epsilon_start : ℚ) (coins : Nat → Fin 2) (rands : Nat → Nat → Rand) (fuel : Nat) :
    Nat → Nat → QLearningAgent → Except TrainError QLearningAgent
  | _, 0, ag => .ok ag
  | i, remaining + 1, ag =>
    match episodeLoop (rands i) fuel ag (Board.newWith (coins i)) [] [] 0 with
    | .error e => .error e
    | .ok ag2 =>
      trainGo epsilon_start coins rands fuel (i + 1) remaining
        { ag2 with epsilon := epsilonAfter epsilon_start i }

/-- The training entry point (`train_q_learning`), up to the file write and
console prints: captures `epsilon_start` and runs the episode loop. -/
def train_q_learning (coins : Nat → Fin 2) (rands : Nat → Nat → Rand) (fuel : Nat)
    (ag : QLearningAgent) (episodes : Nat) : Except TrainError QLearningAgent :=
  trainGo ag.epsilon coins rands fuel 0 episodes ag

/-- Character of one cell in the state fingerprint. -/
def cellChar : Cell → Char
  | Cell.Empty => '-'
  | Cell.X => 'X'
  | Cell.O => 'O'

/-- Spec-side reading of the stored Q-value: the value recorded under the
state and action fingerprints, `0.0` by default (§4.2 "read-with-default"). -/
def storedQ (t : QTable) (state action : String) : ℚ :=
  (List.lookup action ((List.lookup state t).getD [])).getD 0

/-- Spec-side reading of `max_next` (§4.2): the maximum over all action
values recorded under the next-state fingerprint, or `0.0` if that
fingerprint has no entries, phrased with `List.maximum` rather than the
source's fold. -/
def specMaxNext (t : QTable) (next_state : String) : ℚ :=
  match List.lookup next_state t with
  | none => 0
  | some actions => ((actions.map Prod.snd).maximum).getD 0

/-- The table invariant of C10: every state key present in the table maps
to a non-empty inner action map. -/
def innerNonempty (t : QTable) : Prop :=
  ∀ s m, List.lookup s t = some m → m ≠ []

/-- The board with the marker of the opponent of the player about to move
hypothetically placed at `pos`. -/
def oppPlaced (b : Board) (pos : Fin 3 × Fin 3) : Board :=
  { b with grid := setCell b.grid pos.1 pos.2 ((get_current_player b).opponent.marker) }

/-- Spec-side reading of the blocking test (§4.1): hypothetically placing
the marker of the opponent of the player about to move at `pos`
immediately wins for that opponent. -/
def oppWinsAt (b : Board) (pos : Fin 3 × Fin 3) : Prop :=
  check_winner (oppPlaced b pos) = some ((get_current_player b).opponent.marker)

instance (b : Board) (pos : Fin 3 × Fin 3) : Decidable (oppWinsAt b pos) :=
  inferInstanceAs (Decidable (check_winner (oppPlaced b pos) = _))

/-- Alternation invariant of a board reached by legal play: whichever
player is about to move has placed either as many marks as the opponent or
exactly one fewer. -/
def Balanced (b : Board) : Prop :=
  (b.current_player = 0 →
    (flatten b.grid).count Cell.X ≤ (flatten b.grid).count Cell.O ∧
    (flatten b.grid).count Cell.O ≤ (flatten b.grid).count Cell.X + 1) ∧
  (b.current_player = 1 →
    (flatten b.grid).count Cell.O ≤ (flatten b.grid).count Cell.X ∧
    (flatten b.grid).count Cell.X ≤ (flatten b.grid).count Cell.O + 1)

/-- Spec-side propagation rewards of C1: `0.7` for the first backward
update, then the constant `min(α·0.7, 0.1)` for every later one. -/
def scheduleRewards (alpha : ℚ) (n : Nat) : List ℚ :=
  7/10 :: List.replicate (n - 2) (min (alpha * (7/10)) (1/10))

/-- Spec-side application of a list of TD updates, all with one shared
action fingerprint: each list entry is a consecutive state pair together
with its propagation reward. -/
def applySchedule (ag : QLearningAgent) (action_val : String) :
    List ((String × String) × ℚ) → Except TrainError QLearningAgent
  | [] => .ok ag
  | ((s0, s1), r) :: rest =>
    match update_q_value ag s0 action_val r s1 with
    | some ag2 => applySchedule ag2 action_val rest
    | none => .error .negInfinity

end QTTT

-- Decidable equality for `Except`, used only to evaluate the embedding on
-- concrete inputs in witness proofs.
deriving instance DecidableEq for Except

namespace QTTT

/-- Witness board with one occupied cell. -/
def boardW : Board :=
  { grid := fun i j => if i = 0 ∧ j = 0 then Cell.X else Cell.Empty,
    players := stdPlayers, current_player := 1 }

/-- Witness board of a finished drawn game: `XOX / XOO / OXX`. -/
def drawBoardW : Board :=
  { grid := fun i j =>
      if i = 0 then (if j = 0 then Cell.X else if j = 1 then Cell.O else Cell.X)
      else if i = 1 then (if j = 0 then Cell.X else if j = 1 then Cell.O else Cell.O)
      else (if j = 0 then Cell.O else if j = 1 then Cell.X else Cell.X),
    players := stdPlayers, current_player := 0 }

/-- Witness board where O is to move and X threatens to win at `(0,2)`:
`XX- / O-- / ---`. -/
def blockBoardW : Board :=
  { grid := fun i j =>
      if i = 0 ∧ j = 0 then Cell.X
      else if i = 0 ∧ j = 1 then Cell.X
      else if i = 1 ∧ j = 0 then Cell.O
      else Cell.Empty,
    players := stdPlayers, current_player := 1 }

/-- Witness agent in training mode with an empty table. -/
def agTrainW : QLearningAgent :=
  { q_table := [], alpha := 1/2, gamma := 1/2, epsilon := 1/2, train := true }

/-- Witness agent outside training mode with an empty table. -/
def agPlayW : QLearningAgent :=
  { q_table := [], alpha := 1/2, gamma := 1/2, epsilon := 9/10, train := false }

/-- Witness agent whose table already holds one state with one action. -/
def agTableW : QLearningAgent :=
  { q_table := [("n", [("x", 1/2), ("y", 3/4)])], alpha := 1/2, gamma := 1/2,
    epsilon := 1/2, train := true }

end QTTT

namespace QTTT

lemma lookup_alinsert_self {β : Type} (k : String) (v : β) (l : List (String × β)) :
    List.lookup k (alinsert k v l) = some v := by
  induction l with
  | nil => simp [alinsert, List.lookup]
  | cons p rest ih =>
    obtain ⟨k', v'⟩ := p
    by_cases h : k' = k
    · simp [alinsert, h, List.lookup]
    · simp only [alinsert, if_neg h, List.lookup]
      have : (k == k') = false := by
        simp [beq_iff_eq]
        exact fun hk => h hk.symm
      simp [this, ih]

lemma lookup_alinsert_ne {β : Type} (k k' : String) (v : β) (l : List (String × β))
    (h : k' ≠ k) : List.lookup k' (alinsert k v l) = List.lookup k' l := by
  induction l with
  | nil =>
    have hbe : (k' == k) = false := by simp [beq_iff_eq, h]
    simp [alinsert, List.lookup, hbe]
  | cons p rest ih =>
    obtain ⟨k0, v0⟩ := p
    by_cases h0 : k0 = k
    · subst h0
      simp only [alinsert, if_pos rfl, List.lookup]
      have : (k' == k0) = false := by simp [beq_iff_eq, h]
      simp [this]
    · simp only [alinsert, if_neg h0, List.lookup]
      cases hbe : k' == k0 with
      | true => rfl
      | false => exact ih

lemma alinsert_ne_nil {β : Type} (k : String) (v : β) (l : List (String × β)) :
    alinsert k v l ≠ [] := by
  cases l with
  | nil => simp [alinsert]
  | cons p rest =>
    obtain ⟨k', v'⟩ := p
    by_cases h : k' = k <;> simp [alinsert, h]

/-- C9: the state fingerprint depends only on the grid, read in row-major
order; two boards with identical grids fingerprint identically regardless
of the `current_player` (and `players`) bookkeeping, so the value table
never distinguishes which mark is to move on a given grid. -/
theorem c9_fingerprint_ignores_turn (b1 b2 : Board) (h : b1.grid = b2.grid) :
    board_state b1 = board_state b2 := by
  unfold board_state
  rw [h]

/-- Witness for C9: two fresh boards that differ in the player to move
have equal fingerprints. -/
theorem c9_fingerprint_ignores_turn_witness :
    board_state (Board.newWith 0) = board_state (Board.newWith 1) :=
  c9_fingerprint_ignores_turn (Board.newWith 0) (Board.newWith 1) rfl

/-- C6: `make_move` on an occupied in-range cell reports
`move_successful = false`, `game_over = false` and no winner, and returns
the board completely unchanged (grid, players and current player), for
every board and every such cell. -/
theorem c6_occupied_cell_noop (b : Board) (r c : Fin 3) (h : b.grid r c ≠ Cell.Empty) :
    make_move b r c = (b, ⟨false, false⟩, none) := by
  unfold make_move
  rw [if_neg h]

/-- Witness for C6 at a concrete occupied cell. -/
theorem c6_occupied_cell_noop_witness :
    boardW.grid 0 0 ≠ Cell.Empty ∧ make_move boardW 0 0 = (boardW, ⟨false, false⟩, none) :=
  ⟨by decide, c6_occupied_cell_noop boardW 0 0 (by decide)⟩

lemma chooseRand_isSome {α : Type} (l : List α) (i : Nat) (h : l ≠ []) :
    (chooseRand l i).isSome = true := by
  have hlt : i % l.length < l.length := Nat.mod_lt i (List.length_pos.mpr h)
  rw [chooseRand, List.getElem?_eq_getElem hlt]
  rfl

/-- C3: with a blocking move supplied and the train flag on,
`choose_action` returns exactly the blocking move, flagged as a forced
block and not as exploration, regardless of ε or table contents; with the
train flag off the override is disabled and no chosen action is ever
flagged as a forced block.  On a non-empty move list the selection always
yields an action. -/
theorem c3_blocking_override (ag : QLearningAgent) (state : String)
    (moves : List (Fin 3 × Fin 3)) (b : Fin 3 × Fin 3) (r : Rand) (hm : moves ≠ []) :
    (ag.train = true → choose_action ag state moves (some b) r = some (b, true, false)) ∧
    (ag.train = false → ∀ blocking z, choose_action ag state moves blocking r = some z →
      z.2.1 = false) ∧
    (∀ blocking, (choose_action ag state moves blocking r).isSome = true) := by
  refine ⟨?_, ?_, ?_⟩
  · intro ht
    unfold choose_action
    rw [if_pos ⟨rfl, ht⟩]
    rfl
  · intro ht blocking z hz
    unfold choose_action at hz
    rw [if_neg (by simp [ht]), if_neg (by simp [ht])] at hz
    cases hlk : List.lookup state ag.q_table with
    | some actions =>
      rw [hlk] at hz
      obtain ⟨a, -, hza⟩ := Option.map_eq_some'.mp hz
      rw [← hza]
    | none =>
      rw [hlk] at hz
      obtain ⟨a, -, hza⟩ := Option.map_eq_some'.mp hz
      rw [← hza]
  · intro blocking
    rw [choose_action]
    by_cases hb : blocking.isSome = true ∧ ag.train = true
    · rw [if_pos hb]
      rcases blocking with _ | bv
      · exact absurd hb.1 (by simp)
      · rfl
    · rw [if_neg hb]
      by_cases hexp : r.val < ag.epsilon ∧ ag.train = true
      · rw [if_pos hexp]
        simp [chooseRand_isSome moves r.idx hm]
      · rw [if_neg hexp]
        rcases List.lookup state ag.q_table with _ | actions
        · simp [chooseRand_isSome moves r.idx hm]
        · cases moves with
          | nil => exact absurd rfl hm
          | cons x xs => simp [maxByLast]

/-- Witness for C3: in training mode the supplied blocking move `(0,2)` is
forced; out of training mode the same call never sets the forced-block
flag. -/
theorem c3_blocking_override_witness :
    choose_action agTrainW "---------" [(0, 0), (0, 2)] (some (0, 2)) ⟨0, 0⟩
        = some ((0, 2), true, false) ∧
    (choose_action agPlayW "---------" [(0, 0), (0, 2)] (some (0, 2)) ⟨0, 0⟩).map
        (fun z => z.2.1) = some false := by
  have h2 : choose_action agPlayW "---------" [(0, 0), (0, 2)] (some (0, 2)) ⟨0, 0⟩
      = some ((0, 0), false, false) := by with_unfolding_all decide
  refine ⟨(c3_blocking_override agTrainW "---------" [(0, 0), (0, 2)] (0, 2) ⟨0, 0⟩
    (by decide)).1 rfl, ?_⟩
  rw [h2]
  have := (c3_blocking_override agPlayW "---------" [(0, 0), (0, 2)] (0, 2) ⟨0, 0⟩
    (by decide)).2.1 rfl (some (0, 2)) ((0, 0), false, false) h2
  simp [this]

lemma foldl_append_data (L : List String) :
    ∀ acc : String, (L.foldl (· ++ ·) acc).data = acc.data ++ (L.map String.data).flatten := by
  induction L with
  | nil => intro acc; simp
  | cons s rest ih =>
    intro acc
    rw [List.foldl_cons, ih, String.data_append, List.map_cons, List.flatten_cons,
      List.append_assoc]

lemma data_join (L : List String) : (String.join L).data = (L.map String.data).flatten := by
  have := foldl_append_data L ""
  simpa [String.join] using this

lemma data_cellStr (c : Cell) : (cellStr c).data = [cellChar c] := by
  cases c <;> rfl

lemma toList_board_state (b : Board) :
    (board_state b).toList = (flatten b.grid).map cellChar := by
  show (board_state b).data = (flatten b.grid).map cellChar
  rw [board_state, data_join, List.map_map]
  have : (String.data ∘ cellStr) = fun c => [cellChar c] := by
    funext c
    exact data_cellStr c
  rw [this]
  induction flatten b.grid with
  | nil => rfl
  | cons c rest ih => simp [ih]

lemma count_chars_of_map (l : List Cell) :
    ((l.map cellChar).filter (fun ch => ch = '-')).length = l.count Cell.Empty := by
  induction l with
  | nil => rfl
  | cons c rest ih =>
    cases c <;> simp [cellChar, List.count_cons, ih]

/-- Number of `'-'` characters of a fingerprint equals the number of empty
cells of the board. -/
lemma count_dash (b : Board) :
    ((board_state b).toList.filter (fun ch => ch = '-')).length
      = (flatten b.grid).count Cell.Empty := by
  rw [toList_board_state, count_chars_of_map]

lemma getD_empty_eq_iff (o : Option Cell) (m : Cell) (hm : m ≠ Cell.Empty) :
    (o.getD Cell.Empty = m) ↔ o = some m := by
  cases o with
  | none =>
    simp only [Option.getD_none]
    exact iff_of_false (fun h => hm h.symm) (by simp)
  | some w => simp [Option.getD_some]

/-- C4: the immediate reward of one training transition, evaluated from
the perspective of the mover who just moved, is `1.0` on an immediate win;
else the blocking bonus (`0.9` while the pre-move board has more than 5
empty cells, `0.4` otherwise) when the move was a forced block; else `0.3`
on a draw; else `0.0` — the branches tested in exactly this order, so a
winning block earns `1.0` and a drawing non-block earns `0.3`.  This is
the reward `episodeLoop` passes to `update_q_value` at every non-terminal
step. -/
theorem c4_reward_branches (pre post : Board) (mover : Cell) (blk : Bool)
    (hm : mover ≠ Cell.Empty) :
    (check_winner post = some mover → stepReward (board_state pre) post mover blk = 1) ∧
    (check_winner post ≠ some mover → blk = true →
      stepReward (board_state pre) post mover blk =
        (if 5 < (flatten pre.grid).count Cell.Empty then 9/10 else 2/5)) ∧
    (check_winner post ≠ some mover → blk = false → is_draw post = true →
      stepReward (board_state pre) post mover blk = 3/10) ∧
    (check_winner post ≠ some mover → blk = false → is_draw post = false →
      stepReward (board_state pre) post mover blk = 0) := by
  have hwin := getD_empty_eq_iff (check_winner post) mover hm
  refine ⟨?_, ?_, ?_, ?_⟩
  · intro hw
    simp [stepReward, hwin.mpr hw]
  · intro hw hb
    rw [stepReward, if_neg (fun h => hw (hwin.mp h)), hb, if_pos rfl, count_dash]
  · intro hw hb hd
    rw [stepReward, if_neg (fun h => hw (hwin.mp h)), hb]
    simp [hd]
  · intro hw hb hd
    rw [stepReward, if_neg (fun h => hw (hwin.mp h)), hb]
    simp [hd]

/-- Witness for C4: from an empty pre-move board a forced block earns the
sparse bonus `0.9`, and the drawing final move of the drawn witness board
earns `0.3`. -/
theorem c4_reward_branches_witness :
    stepReward (board_state (Board.newWith 0)) boardW Cell.O true = 9/10 ∧
    stepReward (board_state boardW) drawBoardW Cell.X false = 3/10 := by
  constructor
  · exact ((c4_reward_branches (Board.newWith 0) boardW Cell.O true (by decide)).2.1
      (by decide) rfl).trans (by norm_num [Board.newWith, flatten])
  · exact ((c4_reward_branches boardW drawBoardW Cell.X false (by decide)).2.2.1
      (by decide) rfl (by decide))

lemma foldl_max_left (t : List ℚ) : ∀ a b : ℚ, t.foldl max (max a b) = max a (t.foldl max b) := by
  induction t with
  | nil => intro a b; rfl
  | cons c t ih =>
    intro a b
    rw [List.foldl_cons, List.foldl_cons, max_assoc, ih]

lemma foldMaxNeg_step (l : List ℚ) :
    ∀ a : ℚ, l.foldl (fun acc v =>
        match acc with
        | none => some v
        | some m => some (max m v)) (some a) = some (l.foldl max a) := by
  induction l with
  | nil => intro a; rfl
  | cons v t ih => intro a; rw [List.foldl_cons, List.foldl_cons]; exact ih (max a v)

lemma foldMaxNeg_cons (a : ℚ) (l : List ℚ) : foldMaxNeg (a :: l) = some (l.foldl max a) := by
  rw [foldMaxNeg, List.foldl_cons]
  exact foldMaxNeg_step l a

lemma maximum_eq_foldl (a : ℚ) (l : List ℚ) : (a :: l).maximum = some (l.foldl max a) := by
  induction l generalizing a with
  | nil =>
    rw [List.maximum_cons, List.maximum_nil, max_eq_left bot_le]
    rfl
  | cons b t ih =>
    rw [List.maximum_cons, ih b, List.foldl_cons, foldl_max_left]
    show (max ((a : ℚ) : WithBot ℚ) ((t.foldl max b : ℚ) : WithBot ℚ) : WithBot ℚ)
      = ((max a (t.foldl max b) : ℚ) : WithBot ℚ)
    rw [WithBot.coe_max]

/-- On a non-empty inner map, the source's `NEG_INFINITY` fold agrees with
the spec-side maximum. -/
lemma foldMaxNeg_eq_specMax (m : ActionMap) (hm : m ≠ []) :
    foldMaxNeg (m.map Prod.snd) = some (((m.map Prod.snd).maximum).getD 0) := by
  cases m with
  | nil => exact absurd rfl hm
  | cons p rest =>
    rw [List.map_cons, foldMaxNeg_cons, maximum_eq_foldl]
    rfl

lemma get_q_value_fst (ag : QLearningAgent) (s a : String) :
    (get_q_value ag s a).1 = storedQ ag.q_table s a := rfl

/-- Reading back the freshly stored value of `updateGo`. -/
lemma storedQ_updateGo (ag : QLearningAgent) (s a : String) (r mx : ℚ) :
    storedQ (updateGo ag s a r mx).q_table s a
      = storedQ ag.q_table s a + ag.alpha * (r + ag.gamma * mx - storedQ ag.q_table s a) := by
  show storedQ
      (alinsert s
        (alinsert a
          (storedQ ag.q_table s a + ag.alpha * (r + ag.gamma * mx - storedQ ag.q_table s a))
          ((List.lookup s (get_q_value ag s a).2.q_table).getD []))
        (get_q_value ag s a).2.q_table) s a = _
  rw [storedQ, lookup_alinsert_self, Option.getD_some, lookup_alinsert_self, Option.getD_some]

/-- The TD update either hits the unrepresentable `-∞` case or produces an
`updateGo` result at some `max_q_next`. -/
lemma update_q_value_cases (ag : QLearningAgent) (s a : String) (r : ℚ) (ns : String) :
    update_q_value ag s a r ns = none ∨
    ∃ mx, update_q_value ag s a r ns = some (updateGo ag s a r mx) := by
  rw [update_q_value]
  rcases List.lookup ns ag.q_table with _ | m
  · right
    exact ⟨0, rfl⟩
  · rw [Option.map_some']
    rcases foldMaxNeg (m.map Prod.snd) with _ | mx
    · left
      rfl
    · right
      exact ⟨mx, rfl⟩

lemma updateGo_alpha (ag : QLearningAgent) (s a : String) (r mx : ℚ) :
    (updateGo ag s a r mx).alpha = ag.alpha := rfl

lemma update_q_value_preserves {ag ag2 : QLearningAgent} {s a : String} {r : ℚ} {ns : String}
    (h : update_q_value ag s a r ns = some ag2) :
    ag2.alpha = ag.alpha ∧ ag2.gamma = ag.gamma ∧ ag2.epsilon = ag.epsilon ∧
    ag2.train = ag.train := by
  rcases update_q_value_cases ag s a r ns with h0 | ⟨mx, h0⟩ <;> rw [h0] at h
  · exact absurd h (by simp)
  · cases h
    exact ⟨rfl, rfl, rfl, rfl⟩

/-- C2: `update_q_value` stores `new = old + α·(reward + γ·max_next − old)`
under the given state and action fingerprints, where `old` is the current
stored value (`0.0` by default) and `max_next` is the maximum value
recorded under the next-state fingerprint, `0.0` when that fingerprint has
no entries; when the next state is absent the update collapses to
`new = old + α·(reward − old)`.  The hypothesis excludes a
present-but-empty inner map, the one case whose IEEE `-∞` fold `ℚ`
cannot represent (ruled out for reachable tables by C10). -/
theorem c2_td_update_formula (ag : QLearningAgent) (s a : String) (r : ℚ) (ns : String)
    (hns : List.lookup ns ag.q_table = none ∨
      ∀ m, List.lookup ns ag.q_table = some m → m ≠ []) :
    (update_q_value ag s a r ns).map (fun ag2 => storedQ ag2.q_table s a)
      = some (storedQ ag.q_table s a
          + ag.alpha * (r + ag.gamma * specMaxNext ag.q_table ns - storedQ ag.q_table s a)) ∧
    (List.lookup ns ag.q_table = none →
      storedQ ag.q_table s a
          + ag.alpha * (r + ag.gamma * specMaxNext ag.q_table ns - storedQ ag.q_table s a)
        = storedQ ag.q_table s a + ag.alpha * (r - storedQ ag.q_table s a)) := by
  constructor
  · rcases hlk : List.lookup ns ag.q_table with _ | m
    · rw [update_q_value, hlk, Option.map_none']
      show some (storedQ (updateGo ag s a r 0).q_table s a) = _
      rw [storedQ_updateGo]
      simp only [specMaxNext, hlk]
    · have hm : m ≠ [] := by
        rcases hns with hn | hne
        · rw [hlk] at hn
          exact absurd hn (by simp)
        · exact hne m hlk
      rw [update_q_value, hlk, Option.map_some', foldMaxNeg_eq_specMax m hm]
      show some (storedQ (updateGo ag s a r (((m.map Prod.snd).maximum).getD 0)).q_table s a) = _
      rw [storedQ_updateGo]
      simp only [specMaxNext, hlk]
  · intro hn
    simp only [specMaxNext, hn]
    ring

/-- Witness for C2: an update on a table whose next-state key is absent. -/
theorem c2_td_update_formula_witness :
    (update_q_value agTrainW "s0" "a0" 1 "t0").map (fun ag2 => storedQ ag2.q_table "s0" "a0")
        = some (storedQ agTrainW.q_table "s0" "a0"
            + agTrainW.alpha * (1 + agTrainW.gamma * specMaxNext agTrainW.q_table "t0"
                - storedQ agTrainW.q_table "s0" "a0")) ∧
    storedQ agTrainW.q_table "s0" "a0"
        + agTrainW.alpha * (1 + agTrainW.gamma * specMaxNext agTrainW.q_table "t0"
            - storedQ agTrainW.q_table "s0" "a0")
      = storedQ agTrainW.q_table "s0" "a0"
        + agTrainW.alpha * (1 - storedQ agTrainW.q_table "s0" "a0") := by
  have h := c2_td_update_formula agTrainW "s0" "a0" 1 "t0" (Or.inl rfl)
  exact ⟨h.1, h.2 rfl⟩

/-- C10: a table in which every present state key holds a non-empty action
map keeps that invariant across both table operations; `get_q_value`
materialises a `0.0` action entry together with any state entry it
creates, `update_q_value` always inserts the updated action value, and
consequently the `max_q_next` fold of `update_q_value` never runs over a
present-but-empty action map (the `-∞` case), so the update always
succeeds. -/
theorem c10_table_invariant (ag : QLearningAgent) (h : innerNonempty ag.q_table) :
    (∀ s a, innerNonempty (get_q_value ag s a).2.q_table) ∧
    (∀ s a r ns, (update_q_value ag s a r ns).isSome = true ∧
      innerNonempty ((update_q_value ag s a r ns).getD ag).q_table) := by
  have hins : ∀ (t : QTable) (s : String) (inner : ActionMap), innerNonempty t →
      inner ≠ [] → innerNonempty (alinsert s inner t) := by
    intro t s inner ht hi s' m' hm'
    by_cases hss : s' = s
    · subst hss
      rw [lookup_alinsert_self] at hm'
      cases hm'
      exact hi
    · rw [lookup_alinsert_ne s s' inner t hss] at hm'
      exact ht s' m' hm'
  constructor
  · intro s a
    exact hins ag.q_table s _ h (alinsert_ne_nil _ _ _)
  · intro s a r ns
    have hsome : (update_q_value ag s a r ns).isSome = true := by
      rw [update_q_value]
      rcases hlk : List.lookup ns ag.q_table with _ | m
      · simp
      · have hm : m ≠ [] := h ns m hlk
        rw [Option.map_some', foldMaxNeg_eq_specMax m hm]
        simp
    refine ⟨hsome, ?_⟩
    rcases update_q_value_cases ag s a r ns with h0 | ⟨mx, h0⟩
    · rw [h0] at hsome
      exact absurd hsome (by simp)
    · rw [h0]
      show innerNonempty (alinsert s _ _)
      exact hins _ s _ (hins ag.q_table s _ h (alinsert_ne_nil _ _ _))
        (alinsert_ne_nil _ _ _)

/-- Witness for C10: the update on a concrete invariant-satisfying table
succeeds. -/
theorem c10_table_invariant_witness :
    (update_q_value agTableW "s0" "a0" 1 "n").isSome = true :=
  ((c10_table_invariant agTableW (by
    intro s m hm
    simp only [agTableW] at hm
    rw [List.lookup] at hm
    rcases hbe : s == "n" with _ | _ <;> rw [hbe] at hm
    · rw [List.lookup] at hm
      exact absurd hm (by simp)
    · cases hm
      simp)).2 "s0" "a0" 1 "n").1

lemma zip_map_filter {α : Type} (h : α → Nat) (L : List α) :
    ((L.zip (L.map h)).filter (fun q => q.2 == 1)).map Prod.fst
      = L.filter (fun x => h x == 1) := by
  induction L with
  | nil => rfl
  | cons x t ih =>
    rw [List.map_cons, List.zip_cons_cons, List.filter_cons, List.filter_cons]
    by_cases hx : (h x == 1) = true
    · simp only [hx, if_pos]
      rw [List.map_cons, ih]
    · simp only [hx]
      rw [if_neg (by simp [hx]), if_neg (by simp [hx]), ih]

/-- The legal-move list is the row-major coordinate list filtered to the
currently empty cells. -/
lemma available_moves_eq (b : Board) :
    available_moves b = totalMoves.filter (fun p => decide (b.grid p.1 p.2 = Cell.Empty)) := by
  have h1 : flatten b.grid = totalMoves.map (fun p => b.grid p.1 p.2) := rfl
  rw [available_moves, h1, List.map_map, zip_map_filter]
  have h2 : (fun p : Fin 3 × Fin 3 =>
      (((fun x => match x with
        | Cell.Empty => 1
        | _ => 0) ∘ fun p : Fin 3 × Fin 3 => b.grid p.1 p.2) p == 1))
      = fun p : Fin 3 × Fin 3 => decide (b.grid p.1 p.2 = Cell.Empty) := by
    funext p
    show ((match b.grid p.1 p.2 with
      | Cell.Empty => (1 : Nat)
      | _ => 0) == 1) = decide (b.grid p.1 p.2 = Cell.Empty)
    rcases b.grid p.1 p.2 <;> rfl
  rw [h2]

lemma mem_available_moves_empty {b : Board} {p : Fin 3 × Fin 3}
    (hp : p ∈ available_moves b) : b.grid p.1 p.2 = Cell.Empty := by
  rw [available_moves_eq] at hp
  exact of_decide_eq_true (List.mem_filter.mp hp).2

lemma check_winner_grid_only (b1 b2 : Board) (h : b1.grid = b2.grid) :
    check_winner b1 = check_winner b2 := by
  rw [check_winner, check_winner, h]

/-- The winner component of a successful move is the winner check on the
grid with the mover's marker placed. -/
lemma make_move_winner (b : Board) (r c : Fin 3) (h : b.grid r c = Cell.Empty) :
    (make_move b r c).2.2
      = check_winner { b with grid := setCell b.grid r c ((b.players b.current_player).marker) } := by
  rw [make_move, if_pos h]
  rfl

/-- In the blocking scan, the marker the source places after the turn flip
is exactly the opponent's marker of the player about to move. -/
lemma switch_marker_eq_opp (b : Board) (hp : b.players = stdPlayers) :
    (get_current_player (switch_turn b)).marker = (get_current_player b).opponent.marker := by
  rw [get_current_player, get_current_player, switch_turn, hp]
  rcases b with ⟨g, pl, cp⟩
  rcases cp with ⟨cpv, hcpv⟩
  interval_cases cpv <;> rfl

lemma fbmAux_eq_find (b : Board) (hp : b.players = stdPlayers) (l : List (Fin 3 × Fin 3))
    (hl : ∀ p ∈ l, b.grid p.1 p.2 = Cell.Empty) :
    fbmAux b l = l.find? (fun pos => decide (oppWinsAt b pos)) := by
  induction l with
  | nil => rfl
  | cons pos rest ih =>
    have hpos : b.grid pos.1 pos.2 = Cell.Empty := hl pos (by simp)
    have hrest : ∀ p ∈ rest, b.grid p.1 p.2 = Cell.Empty := fun p hp2 => hl p (by simp [hp2])
    have hw : (make_move (switch_turn b) pos.1 pos.2).2.2 = check_winner (oppPlaced b pos) := by
      rw [make_move_winner (switch_turn b) pos.1 pos.2 hpos]
      apply check_winner_grid_only
      show setCell b.grid pos.1 pos.2 ((get_current_player (switch_turn b)).marker) = _
      rw [switch_marker_eq_opp b hp]
      rfl
    have hcpm := switch_marker_eq_opp b hp
    simp only [fbmAux, hw, hcpm, List.find?_cons]
    rcases hcw : check_winner (oppPlaced b pos) with _ | w
    · have hnw : decide (oppWinsAt b pos) = false := by
        simp [oppWinsAt, hcw]
      simp only [hnw]
      exact ih hrest
    · by_cases hwm : w = (get_current_player b).opponent.marker
      · have hyes : decide (oppWinsAt b pos) = true := by
          simp [oppWinsAt, hcw, hwm]
        simp [hwm, hyes]
      · have hno : decide (oppWinsAt b pos) = false := by
          apply decide_eq_false
          rw [oppWinsAt, hcw]
          exact fun hcon => hwm (Option.some_injective Cell hcon)
        simp [hwm, hno, ih hrest]

/-- C7: `find_blocking_move` returns the first coordinate, in the
row-major order of the legal-move list, at which hypothetically placing
the marker of the opponent of the player about to move immediately wins
for that opponent; it returns `None` exactly when no legal move does so.
The last conjunct pins the legal-move list itself as the row-major cells
currently empty. -/
theorem c7_blocking_move_spec (b : Board) (hp : b.players = stdPlayers) :
    find_blocking_move b = (available_moves b).find? (fun pos => decide (oppWinsAt b pos)) ∧
    (find_blocking_move b = none ↔ ∀ pos ∈ available_moves b, ¬ oppWinsAt b pos) ∧
    available_moves b = totalMoves.filter (fun p => decide (b.grid p.1 p.2 = Cell.Empty)) := by
  have h1 : find_blocking_move b
      = (available_moves b).find? (fun pos => decide (oppWinsAt b pos)) := by
    rw [find_blocking_move]
    exact fbmAux_eq_find b hp (available_moves b) (fun p hp2 => mem_available_moves_empty hp2)
  refine ⟨h1, ?_, available_moves_eq b⟩
  rw [h1, List.find?_eq_none]
  simp

/-- Witness for C7 on a concrete board with a unique blocking move. -/
theorem c7_blocking_move_spec_witness :
    find_blocking_move blockBoardW
      = (available_moves blockBoardW).find? (fun pos => decide (oppWinsAt blockBoardW pos)) :=
  (c7_blocking_move_spec blockBoardW rfl).1

/-- The propagation loop applies exactly the schedule of C1: one update
per consecutive state pair, reward `r` first and the constant
`min(α·0.7, 0.1)` afterwards. -/
lemma propagate_eq_schedule (av : String) :
    ∀ (l : List String) (ag : QLearningAgent) (r : ℚ),
      propagate ag av r l
        = applySchedule ag av ((l.zip l.tail).zip
            (r :: List.replicate (l.length - 2) (min (ag.alpha * (7/10)) (1/10)))) := by
  intro l
  induction l with
  | nil => intro ag r; rfl
  | cons s0 t ih =>
    intro ag r
    cases t with
    | nil => rfl
    | cons s1 rest =>
      have hzip : (((s0 :: s1 :: rest).zip (s0 :: s1 :: rest).tail).zip
            (r :: List.replicate ((s0 :: s1 :: rest).length - 2)
              (min (ag.alpha * (7/10)) (1/10))))
          = ((s0, s1), r) :: (((s1 :: rest).zip rest).zip
              (List.replicate rest.length (min (ag.alpha * (7/10)) (1/10)))) := by
        simp
      rw [hzip]
      show (match update_q_value ag s0 av r s1 with
        | some ag2 => propagate ag2 av (min (ag2.alpha * (7/10)) (1/10)) (s1 :: rest)
        | none => .error .negInfinity)
        = applySchedule ag av (((s0, s1), r) :: (((s1 :: rest).zip rest).zip
            (List.replicate rest.length (min (ag.alpha * (7/10)) (1/10)))))
      rw [applySchedule]
      rcases hup : update_q_value ag s0 av r s1 with _ | ag2
      · rfl
      · have ha : ag2.alpha = ag.alpha := (update_q_value_preserves hup).1
        dsimp only
        rw [ih ag2 (min (ag2.alpha * (7/10)) (1/10)), ha]
        cases rest with
        | nil => rfl
        | cons s2 rest2 => rfl

/-- C1: when an episode terminates with the winner being the previous
mover's marker, the terminal branch pops the last recorded action without
reusing it and then performs one TD update per consecutive pair of the
recorded state history — `state_history.length - 1` updates in all — every
update sharing the single remaining last action fingerprint, with reward
`0.7` for the first backward pair and the constant `min(α·0.7, 0.1)`
(the "decayed" value) for every later pair. -/
theorem c1_terminal_propagation (ag : QLearningAgent) (w prevMarker : Cell)
    (sh ah : List String) (av : String) (hs : 2 < sh.length) (hw : w = prevMarker)
    (hav : ah.dropLast.getLast? = some av) :
    terminalUpdate ag (some w) prevMarker sh ah
        = applySchedule ag av ((sh.zip sh.tail).zip (scheduleRewards ag.alpha sh.length)) ∧
    ((sh.zip sh.tail).zip (scheduleRewards ag.alpha sh.length)).length = sh.length - 1 := by
  constructor
  · rw [terminalUpdate, if_pos hs]
    simp only [Option.getD_some]
    rw [if_pos hw, hav]
    dsimp only
    rw [propagate_eq_schedule]
    rfl
  · rw [scheduleRewards]
    simp only [List.length_zip, List.length_cons, List.length_replicate, List.length_tail]
    omega

/-- Witness for C1 on a concrete three-state history. -/
theorem c1_terminal_propagation_witness :
    terminalUpdate agTrainW (some Cell.X) Cell.X ["s1", "s2", "s3"] ["a1", "a2", "a3"]
      = applySchedule agTrainW "a2"
          (((["s1", "s2", "s3"] : List String).zip ["s2", "s3"]).zip
            (scheduleRewards agTrainW.alpha 3)) :=
  (c1_terminal_propagation agTrainW Cell.X Cell.X ["s1", "s2", "s3"] ["a1", "a2", "a3"] "a2"
    (by decide) rfl (by decide)).1

lemma propagate_epsilon (av : String) :
    ∀ (l : List String) (ag ag3 : QLearningAgent) (r : ℚ),
      propagate ag av r l = .ok ag3 → ag3.epsilon = ag.epsilon := by
  intro l
  induction l with
  | nil =>
    intro ag ag3 r h
    cases h
    rfl
  | cons s0 t ih =>
    intro ag ag3 r h
    cases t with
    | nil =>
      cases h
      rfl
    | cons s1 rest =>
      rw [propagate] at h
      rcases hup : update_q_value ag s0 av r s1 with _ | ag2 <;> rw [hup] at h
      · exact absurd h (by simp)
      · rw [ih ag2 ag3 _ h]
        exact (update_q_value_preserves hup).2.2.1

lemma terminalUpdate_epsilon {ag ag3 : QLearningAgent} {w : Option Cell} {pm : Cell}
    {sh ah : List String} (h : terminalUpdate ag w pm sh ah = .ok ag3) :
    ag3.epsilon = ag.epsilon := by
  rw [terminalUpdate] at h
  by_cases hs : sh.length > 2
  · rw [if_pos hs] at h
    by_cases hw : w.getD Cell.Empty = pm
    · rw [if_pos hw] at h
      rcases hl : ah.dropLast.getLast? with _ | av <;> rw [hl] at h
      · exact absurd h (by simp)
      · exact propagate_epsilon av sh ag ag3 (7/10) h
    · rw [if_neg hw] at h
      cases h
      rfl
  · rw [if_neg hs] at h
    exact absurd h (by simp)

lemma episodeLoop_epsilon :
    ∀ (fuel : Nat) (rs : Nat → Rand) (ag : QLearningAgent) (g : Board)
      (sh ah : List String) (k : Nat) (ag3 : QLearningAgent),
      episodeLoop rs fuel ag g sh ah k = .ok ag3 → ag3.epsilon = ag.epsilon := by
  intro fuel
  induction fuel with
  | zero =>
    intro rs ag g sh ah k ag3 h
    exact absurd h (by simp [episodeLoop])
  | succ fuel ih =>
    intro rs ag g sh ah k ag3 h
    rw [episodeLoop] at h
    by_cases hgo : (is_game_over g).1 = true
    · rw [if_pos hgo] at h
      exact terminalUpdate_epsilon h
    · rw [if_neg hgo] at h
      dsimp only at h
      rcases hca : choose_action ag (board_state g) (available_moves g)
          (find_blocking_move g) (rs k) with _ | act <;> rw [hca] at h
      · exact absurd h (by simp)
      · obtain ⟨action, is_blocking_move, explore⟩ := act
        dsimp only at h
        rcases hup : update_q_value ag (board_state g) (fmtAction action)
            (stepReward (board_state g) (make_move g action.1 action.2).1
              (get_current_player g).marker is_blocking_move)
            (board_state (make_move g action.1 action.2).1) with _ | ag2 <;> rw [hup] at h
        · exact absurd h (by simp)
        · rw [ih rs ag2 _ _ _ _ ag3 h]
          exact (update_q_value_preserves hup).2.2.1

/-- Epsilon after a successful block of episodes: the last per-episode
assignment wins, and it is computed from the captured starting value and
the episode index. -/
lemma trainGo_epsilon (eps : ℚ) (coins : Nat → Fin 2) (rands : Nat → Nat → Rand) (fuel : Nat) :
    ∀ (n i : Nat) (ag ag2 : QLearningAgent),
      trainGo eps coins rands fuel i (n + 1) ag = .ok ag2 →
      ag2.epsilon = epsilonAfter eps (i + n) := by
  intro n
  induction n with
  | zero =>
    intro i ag ag2 h
    have hdef : trainGo eps coins rands fuel i (0 + 1) ag
        = (match episodeLoop (rands i) fuel ag (Board.newWith (coins i)) [] [] 0 with
          | .error e => .error e
          | .ok ag3 =>
            trainGo eps coins rands fuel (i + 1) 0 { ag3 with epsilon := epsilonAfter eps i }) :=
      rfl
    rw [hdef] at h
    rcases hep : episodeLoop (rands i) fuel ag (Board.newWith (coins i)) [] [] 0
        with e | ag3 <;> rw [hep] at h
    · exact absurd h (by simp)
    · cases h
      rfl
  | succ n ih =>
    intro i ag ag2 h
    have hdef : trainGo eps coins rands fuel i (n + 1 + 1) ag
        = (match episodeLoop (rands i) fuel ag (Board.newWith (coins i)) [] [] 0 with
          | .error e => .error e
          | .ok ag3 =>
            trainGo eps coins rands fuel (i + 1) (n + 1)
              { ag3 with epsilon := epsilonAfter eps i }) :=
      rfl
    rw [hdef] at h
    rcases hep : episodeLoop (rands i) fuel ag (Board.newWith (coins i)) [] [] 0
        with e | ag3 <;> rw [hep] at h
    · exact absurd h (by simp)
    · rw [ih (i + 1) _ ag2 h]
      congr 1
      omega

/-- C5: after episode `i` of a successful training run, ε equals
`max(ε_start − i·(ε_start − 0.1)/TRAIN_EPISODE, 0.1)`, computed from the
initial value captured before the loop — one assignment per episode, and
the only one: within an episode no operation (the episode loop itself,
`get_q_value`, `update_q_value`) ever changes ε, and `choose_action` does
not return a mutated agent at all, so ε never decays outside the training
loop. -/
theorem c5_epsilon_decay (coins : Nat → Fin 2) (rands : Nat → Nat → Rand) (fuel : Nat)
    (ag0 ag2 : QLearningAgent) (i : Nat)
    (h : train_q_learning coins rands fuel ag0 (i + 1) = .ok ag2) :
    ag2.epsilon
        = max (ag0.epsilon - (i : ℚ) * (ag0.epsilon - 1/10) / (TRAIN_EPISODE : ℚ)) (1/10) ∧
    (∀ (f : Nat) (rs : Nat → Rand) (ag : QLearningAgent) (g : Board) (sh ah : List String)
      (k : Nat) (ag3 : QLearningAgent),
      episodeLoop rs f ag g sh ah k = .ok ag3 → ag3.epsilon = ag.epsilon) ∧
    (∀ (ag : QLearningAgent) (s a : String), (get_q_value ag s a).2.epsilon = ag.epsilon) ∧
    (∀ (ag ag3 : QLearningAgent) (s a : String) (r : ℚ) (ns : String),
      update_q_value ag s a r ns = some ag3 → ag3.epsilon = ag.epsilon) := by
  refine ⟨?_, fun f rs ag g sh ah k ag3 h3 => episodeLoop_epsilon f rs ag g sh ah k ag3 h3,
    fun ag s a => rfl,
    fun ag ag3 s a r ns h3 => (update_q_value_preserves h3).2.2.1⟩
  have := trainGo_epsilon ag0.epsilon coins rands fuel i 0 ag0 ag2 h
  rw [this]
  rw [epsilonAfter]
  norm_num

/-- Witness for C5: one concrete episode of training from an empty-table
agent, after which ε carries the formula's value for episode index 0. -/
theorem c5_epsilon_decay_witness :
    (train_q_learning (fun _ => 0) (fun _ _ => ⟨0, 0⟩) 12 agPlayW 1).map
        (fun a => a.epsilon)
      = .ok (max (agPlayW.epsilon - (0 : ℚ) * (agPlayW.epsilon - 1/10) / (TRAIN_EPISODE : ℚ))
          (1/10)) := by
  have hmatch : (match train_q_learning (fun _ => 0) (fun _ _ => ⟨0, 0⟩) 12 agPlayW 1 with
      | .ok _ => true
      | .error _ => false) = true := by
    with_unfolding_all decide
  rcases htr : train_q_learning (fun _ => 0) (fun _ _ => ⟨0, 0⟩) 12 agPlayW 1 with e | ag2
  · rw [htr] at hmatch
    exact absurd hmatch (by simp)
  · have h5 := c5_epsilon_decay (fun _ => 0) (fun _ _ => ⟨0, 0⟩) 12 agPlayW ag2 0 htr
    rw [Except.map, h5.1]
    norm_num

/-- A reported winner is a real marker occurring at least three times on
the grid: each winning line of `check_winner` pins three distinct cells to
the returned marker. -/
lemma check_winner_count (b : Board) (w : Cell) (h : check_winner b = some w) :
    w ≠ Cell.Empty ∧ 3 ≤ (flatten b.grid).count w := by
  rw [check_winner] at h
  split_ifs at h with h1 h2 h3 h4 h5 h6 h7 h8
  · obtain ⟨hne, heA, heB⟩ := h1
    injection h with hw
    subst hw
    refine ⟨hne, ?_⟩
    simp only [flatten]
    rw [heB, heA]
    simp only [List.count_cons, List.count_nil, beq_self_eq_true, if_true]
    split_ifs <;> omega
  · obtain ⟨hne, heA, heB⟩ := h2
    injection h with hw
    subst hw
    refine ⟨hne, ?_⟩
    simp only [flatten]
    rw [heB, heA]
    simp only [List.count_cons, List.count_nil, beq_self_eq_true, if_true]
    split_ifs <;> omega
  · obtain ⟨hne, heA, heB⟩ := h3
    injection h with hw
    subst hw
    refine ⟨hne, ?_⟩
    simp only [flatten]
    rw [heB, heA]
    simp only [List.count_cons, List.count_nil, beq_self_eq_true, if_true]
    split_ifs <;> omega
  · obtain ⟨hne, heA, heB⟩ := h4
    injection h with hw
    subst hw
    refine ⟨hne, ?_⟩
    simp only [flatten]
    rw [heB, heA]
    simp only [List.count_cons, List.count_nil, beq_self_eq_true, if_true]
    split_ifs <;> omega
  · obtain ⟨hne, heA, heB⟩ := h5
    injection h with hw
    subst hw
    refine ⟨hne, ?_⟩
    simp only [flatten]
    rw [heB, heA]
    simp only [List.count_cons, List.count_nil, beq_self_eq_true, if_true]
    split_ifs <;> omega
  · obtain ⟨hne, heA, heB⟩ := h6
    injection h with hw
    subst hw
    refine ⟨hne, ?_⟩
    simp only [flatten]
    rw [heB, heA]
    simp only [List.count_cons, List.count_nil, beq_self_eq_true, if_true]
    split_ifs <;> omega
  · obtain ⟨hne, heA, heB⟩ := h7
    injection h with hw
    subst hw
    refine ⟨hne, ?_⟩
    simp only [flatten]
    rw [heB, heA]
    simp only [List.count_cons, List.count_nil, beq_self_eq_true, if_true]
    split_ifs <;> omega
  · obtain ⟨hne, heA, heB⟩ := h8
    injection h with hw
    subst hw
    refine ⟨hne, ?_⟩
    simp only [flatten]
    rw [heB, heA]
    simp only [List.count_cons, List.count_nil, beq_self_eq_true, if_true]
    split_ifs <;> omega

lemma count_total (l : List Cell) :
    l.count Cell.X + l.count Cell.O + l.count Cell.Empty = l.length := by
  induction l with
  | nil => rfl
  | cons c t ih =>
    rcases c <;> simp [List.count_cons, ← ih] <;> omega

lemma is_draw_count (b : Board) (h : is_draw b = true) :
    (flatten b.grid).count Cell.Empty = 0 := by
  rw [is_draw, List.all_eq_true] at h
  rw [List.count_eq_zero]
  intro hmem
  have := h Cell.Empty hmem
  simp at this

lemma flatten_setCell (g : Grid) (r c : Fin 3) (m : Cell) :
    flatten (setCell g r c m) = (flatten g).set (3 * r.val + c.val) m := by
  fin_cases r <;> fin_cases c <;> rfl

lemma flatten_get (g : Grid) (r c : Fin 3) (h : 3 * r.val + c.val < (flatten g).length) :
    (flatten g).get ⟨3 * r.val + c.val, h⟩ = g r c := by
  fin_cases r <;> fin_cases c <;> rfl

lemma flatten_length (g : Grid) : (flatten g).length = 9 := rfl

lemma count_set_same (m : Cell) :
    ∀ (l : List Cell) (i : Nat) (h : i < l.length), l.get ⟨i, h⟩ ≠ m →
      (l.set i m).count m = l.count m + 1 := by
  intro l
  induction l with
  | nil =>
    intro i h
    exact absurd h (by simp)
  | cons a t ih =>
    intro i h he
    cases i with
    | zero =>
      have ha : a ≠ m := by simpa using he
      simp [List.count_cons, beq_iff_eq, ha]
    | succ j =>
      have hj : j < t.length := by simpa using h
      have he2 : t.get ⟨j, hj⟩ ≠ m := by simpa using he
      simp only [List.set_cons_succ, List.count_cons]
      rw [ih j hj he2]
      omega

lemma count_set_other (m x : Cell) (hx : x ≠ m) :
    ∀ (l : List Cell) (i : Nat) (h : i < l.length), l.get ⟨i, h⟩ ≠ x →
      (l.set i m).count x = l.count x := by
  intro l
  induction l with
  | nil =>
    intro i h
    exact absurd h (by simp)
  | cons a t ih =>
    intro i h he
    cases i with
    | zero =>
      have ha : a ≠ x := by simpa using he
      have hmx : m ≠ x := Ne.symm hx
      simp [List.count_cons, beq_iff_eq, ha, hmx]
    | succ j =>
      have hj : j < t.length := by simpa using h
      have he2 : t.get ⟨j, hj⟩ ≠ x := by simpa using he
      simp only [List.set_cons_succ, List.count_cons]
      rw [ih j hj he2]

lemma chooseRand_mem {α : Type} {l : List α} {i : Nat} {a : α}
    (h : chooseRand l i = some a) : a ∈ l := by
  rw [chooseRand] at h
  exact List.getElem?_mem h

lemma foldl_ite_mem {α : Type} (p : α → α → Prop) [DecidableRel p] :
    ∀ (xs : List α) (x : α), xs.foldl (fun best y => if p best y then best else y) x ∈ x :: xs := by
  intro xs
  induction xs with
  | nil =>
    intro x
    simp
  | cons y t ih =>
    intro x
    rw [List.foldl_cons]
    by_cases hq : p x y
    · rw [if_pos hq]
      rcases List.mem_cons.mp (ih x) with hh | hh
      · exact List.mem_cons.mpr (Or.inl hh)
      · exact List.mem_cons.mpr (Or.inr (List.mem_cons.mpr (Or.inr hh)))
    · rw [if_neg hq]
      rcases List.mem_cons.mp (ih y) with hh | hh
      · exact List.mem_cons.mpr (Or.inr (List.mem_cons.mpr (Or.inl hh)))
      · exact List.mem_cons.mpr (Or.inr (List.mem_cons.mpr (Or.inr hh)))

lemma maxByLast_mem {actions : ActionMap} {l : List (Fin 3 × Fin 3)} {a : Fin 3 × Fin 3}
    (h : maxByLast actions l = some a) : a ∈ l := by
  cases l with
  | nil => exact absurd h (by simp [maxByLast])
  | cons x xs =>
    rw [maxByLast] at h
    injection h with h2
    rw [← h2]
    exact foldl_ite_mem
      (fun best y => (List.lookup (fmtAction best) actions).getD 0
        > (List.lookup (fmtAction y) actions).getD 0) xs x

/-- Whatever `choose_action` returns is the supplied blocking move or a
member of the legal-move list. -/
lemma choose_action_mem {ag : QLearningAgent} {state : String}
    {moves : List (Fin 3 × Fin 3)} {blocking : Option (Fin 3 × Fin 3)} {r : Rand}
    {z : (Fin 3 × Fin 3) × Bool × Bool}
    (h : choose_action ag state moves blocking r = some z) :
    blocking = some z.1 ∨ z.1 ∈ moves := by
  rw [choose_action] at h
  by_cases hb : blocking.isSome = true ∧ ag.train = true
  · rw [if_pos hb] at h
    left
    rcases blocking with _ | b
    · exact absurd hb.1 (by simp)
    · rw [Option.map_some'] at h
      injection h with h2
      rw [← h2]
  · rw [if_neg hb] at h
    right
    by_cases hexp : r.val < ag.epsilon ∧ ag.train = true
    · rw [if_pos hexp] at h
      obtain ⟨a, ha, h2⟩ := Option.map_eq_some'.mp h
      rw [← h2]
      exact chooseRand_mem ha
    · rw [if_neg hexp] at h
      rcases hlk : List.lookup state ag.q_table with _ | actions <;> rw [hlk] at h <;>
        dsimp only at h
      · obtain ⟨a, ha, h2⟩ := Option.map_eq_some'.mp h
        rw [← h2]
        exact chooseRand_mem ha
      · obtain ⟨a, ha, h2⟩ := Option.map_eq_some'.mp h
        rw [← h2]
        exact maxByLast_mem ha

lemma fbmAux_mem {b : Board} {pos : Fin 3 × Fin 3} :
    ∀ {l : List (Fin 3 × Fin 3)}, fbmAux b l = some pos → pos ∈ l := by
  intro l
  induction l with
  | nil => intro h; exact absurd h (by simp [fbmAux])
  | cons q t ih =>
    intro h
    rw [fbmAux] at h
    rcases hmk : (make_move (switch_turn b) q.1 q.2).2.2 with _ | w <;> rw [hmk] at h <;>
      dsimp only at h
    · exact List.mem_cons.mpr (Or.inr (ih h))
    · by_cases hw : w = (get_current_player (switch_turn b)).marker
      · rw [if_pos hw] at h
        injection h with h2
        rw [← h2]
        exact List.mem_cons.mpr (Or.inl rfl)
      · rw [if_neg hw] at h
        exact List.mem_cons.mpr (Or.inr (ih h))

lemma find_blocking_move_mem {b : Board} {pos : Fin 3 × Fin 3}
    (h : find_blocking_move b = some pos) : pos ∈ available_moves b :=
  fbmAux_mem h

lemma board_after_move_x (gg : Grid) (r c : Fin 3) (he : gg r c = Cell.Empty) :
    (make_move ⟨gg, stdPlayers, 0⟩ r c).1 = ⟨setCell gg r c Cell.X, stdPlayers, 1⟩ := by
  rw [make_move, if_pos he]
  rfl

lemma board_after_move_o (gg : Grid) (r c : Fin 3) (he : gg r c = Cell.Empty) :
    (make_move ⟨gg, stdPlayers, 1⟩ r c).1 = ⟨setCell gg r c Cell.O, stdPlayers, 0⟩ := by
  rw [make_move, if_pos he]
  rfl

/-- One legal move by the standard players keeps the player array,
restores the alternation invariant and raises the total mark count by
exactly one. -/
lemma step_preserves (g : Board) (a : Fin 3 × Fin 3) (hp : g.players = stdPlayers)
    (he : g.grid a.1 a.2 = Cell.Empty) (hb : Balanced g) :
    (make_move g a.1 a.2).1.players = stdPlayers ∧
    Balanced (make_move g a.1 a.2).1 ∧
    (flatten (make_move g a.1 a.2).1.grid).count Cell.X
        + (flatten (make_move g a.1 a.2).1.grid).count Cell.O
      = (flatten g.grid).count Cell.X + (flatten g.grid).count Cell.O + 1 := by
  obtain ⟨gg, gpl, gcp⟩ := g
  replace hp : gpl = stdPlayers := hp
  subst hp
  replace he : gg a.1 a.2 = Cell.Empty := he
  have hlt : 3 * a.1.val + a.2.val < (flatten gg).length := by
    rw [flatten_length]
    have h1 := a.1.isLt
    have h2 := a.2.isLt
    omega
  have hgx : (flatten gg).get ⟨3 * a.1.val + a.2.val, hlt⟩ ≠ Cell.X := by
    rw [flatten_get gg a.1 a.2 hlt, he]
    decide
  have hgo2 : (flatten gg).get ⟨3 * a.1.val + a.2.val, hlt⟩ ≠ Cell.O := by
    rw [flatten_get gg a.1 a.2 hlt, he]
    decide
  have hcp : gcp = 0 ∨ gcp = 1 := by
    have hlt2 := gcp.isLt
    by_cases h0 : gcp = 0
    · exact Or.inl h0
    · right
      apply Fin.ext
      have hne0 : gcp.val ≠ 0 := fun hc => h0 (Fin.ext hc)
      show gcp.val = (1 : Fin 2).val
      omega
  rcases hcp with h0 | h1
  · subst h0
    have hb0 : (flatten gg).count Cell.X ≤ (flatten gg).count Cell.O ∧
        (flatten gg).count Cell.O ≤ (flatten gg).count Cell.X + 1 := hb.1 rfl
    rw [board_after_move_x gg a.1 a.2 he]
    have hcx : (flatten (setCell gg a.1 a.2 Cell.X)).count Cell.X
        = (flatten gg).count Cell.X + 1 := by
      rw [flatten_setCell]
      exact count_set_same Cell.X (flatten gg) _ hlt hgx
    have hco : (flatten (setCell gg a.1 a.2 Cell.X)).count Cell.O
        = (flatten gg).count Cell.O := by
      rw [flatten_setCell]
      exact count_set_other Cell.X Cell.O (by decide) (flatten gg) _ hlt hgo2
    refine ⟨rfl, ⟨fun hcc => absurd (show (1 : Fin 2) = 0 from hcc) (by decide),
      fun _ => ?_⟩, ?_⟩
    · show (flatten (setCell gg a.1 a.2 Cell.X)).count Cell.O
          ≤ (flatten (setCell gg a.1 a.2 Cell.X)).count Cell.X ∧
        (flatten (setCell gg a.1 a.2 Cell.X)).count Cell.X
          ≤ (flatten (setCell gg a.1 a.2 Cell.X)).count Cell.O + 1
      rw [hcx, hco]
      omega
    · show (flatten (setCell gg a.1 a.2 Cell.X)).count Cell.X
          + (flatten (setCell gg a.1 a.2 Cell.X)).count Cell.O
        = (flatten gg).count Cell.X + (flatten gg).count Cell.O + 1
      rw [hcx, hco]
      omega
  · subst h1
    have hb1 : (flatten gg).count Cell.O ≤ (flatten gg).count Cell.X ∧
        (flatten gg).count Cell.X ≤ (flatten gg).count Cell.O + 1 := hb.2 rfl
    rw [board_after_move_o gg a.1 a.2 he]
    have hco : (flatten (setCell gg a.1 a.2 Cell.O)).count Cell.O
        = (flatten gg).count Cell.O + 1 := by
      rw [flatten_setCell]
      exact count_set_same Cell.O (flatten gg) _ hlt hgo2
    have hcx : (flatten (setCell gg a.1 a.2 Cell.O)).count Cell.X
        = (flatten gg).count Cell.X := by
      rw [flatten_setCell]
      exact count_set_other Cell.O Cell.X (by decide) (flatten gg) _ hlt hgx
    refine ⟨rfl, ⟨fun _ => ?_, fun hcc => absurd (show (0 : Fin 2) = 1 from hcc) (by decide)⟩,
      ?_⟩
    · show (flatten (setCell gg a.1 a.2 Cell.O)).count Cell.X
          ≤ (flatten (setCell gg a.1 a.2 Cell.O)).count Cell.O ∧
        (flatten (setCell gg a.1 a.2 Cell.O)).count Cell.O
          ≤ (flatten (setCell gg a.1 a.2 Cell.O)).count Cell.X + 1
      rw [hcx, hco]
      omega
    · show (flatten (setCell gg a.1 a.2 Cell.O)).count Cell.X
          + (flatten (setCell gg a.1 a.2 Cell.O)).count Cell.O
        = (flatten gg).count Cell.X + (flatten gg).count Cell.O + 1
      rw [hcx, hco]
      omega

/-- Any terminal board reached by balanced play carries at least five
marks: a winner needs three of one mark and the opponent at least two, a
draw fills all nine cells. -/
lemma terminal_min_moves (g : Board) (hb : Balanced g) (hgo : (is_game_over g).1 = true) :
    5 ≤ (flatten g.grid).count Cell.X + (flatten g.grid).count Cell.O := by
  have hbal : (flatten g.grid).count Cell.X ≤ (flatten g.grid).count Cell.O + 1 ∧
      (flatten g.grid).count Cell.O ≤ (flatten g.grid).count Cell.X + 1 := by
    by_cases h0 : g.current_player = 0
    · obtain ⟨hx, ho⟩ := hb.1 h0
      exact ⟨by omega, by omega⟩
    · have h1 : g.current_player = 1 := by
        apply Fin.ext
        have hlt2 := g.current_player.isLt
        have hne0 : g.current_player.val ≠ 0 := fun hc => h0 (Fin.ext hc)
        omega
      obtain ⟨hx, ho⟩ := hb.2 h1
      exact ⟨by omega, by omega⟩
  have hgo2 : ((check_winner g).isSome || is_draw g) = true := hgo
  by_cases hwin : (check_winner g).isSome = true
  · obtain ⟨w, hw⟩ := Option.isSome_iff_exists.mp hwin
    obtain ⟨hne, hcount⟩ := check_winner_count g w hw
    rcases w with _ | _ | _
    · exact absurd rfl hne
    · omega
    · omega
  · have hdraw : is_draw g = true := by
      rcases hd : is_draw g
      · rw [hd, Bool.or_false] at hgo2
        exact absurd hgo2 hwin
      · rfl
    have h0 := is_draw_count g hdraw
    have htot := count_total (flatten g.grid)
    have hlen : (flatten g.grid).length = 9 := flatten_length g.grid
    omega

lemma propagate_ne_assert (av : String) :
    ∀ (l : List String) (ag : QLearningAgent) (r : ℚ),
      propagate ag av r l ≠ .error .assertionFailed := by
  intro l
  induction l with
  | nil =>
    intro ag r
    simp [propagate]
  | cons s0 t ih =>
    intro ag r
    cases t with
    | nil => simp [propagate]
    | cons s1 rest =>
      rw [propagate]
      rcases update_q_value ag s0 av r s1 with _ | ag2
      · simp
      · exact ih ag2 _

lemma terminalUpdate_ne_assert (ag : QLearningAgent) (w : Option Cell) (pm : Cell)
    (sh ah : List String) (h : 2 < sh.length) :
    terminalUpdate ag w pm sh ah ≠ .error .assertionFailed := by
  rw [terminalUpdate, if_pos h]
  by_cases hw : w.getD Cell.Empty = pm
  · rw [if_pos hw]
    rcases ah.dropLast.getLast? with _ | av
    · simp
    · exact propagate_ne_assert av sh ag (7/10)
  · rw [if_neg hw]
    simp

/-- Episode runs whose board satisfies the legal-play invariants (standard
players, balanced mark counts, history length equal to the number of marks
placed) never trip the terminal assertion. -/
lemma episodeLoop_no_assert :
    ∀ (fuel : Nat) (rs : Nat → Rand) (ag : QLearningAgent) (g : Board)
      (sh ah : List String) (k : Nat),
      g.players = stdPlayers → Balanced g →
      sh.length = (flatten g.grid).count Cell.X + (flatten g.grid).count Cell.O →
      episodeLoop rs fuel ag g sh ah k ≠ .error .assertionFailed := by
  intro fuel
  induction fuel with
  | zero =>
    intro rs ag g sh ah k _ _ _
    simp [episodeLoop]
  | succ fuel ih =>
    intro rs ag g sh ah k hp hb hlen
    rw [episodeLoop]
    by_cases hgo : (is_game_over g).1 = true
    · rw [if_pos hgo]
      have h5 := terminal_min_moves g hb hgo
      exact terminalUpdate_ne_assert ag _ _ sh ah (by omega)
    · rw [if_neg hgo]
      dsimp only
      rcases hca : choose_action ag (board_state g) (available_moves g)
          (find_blocking_move g) (rs k) with _ | act
      · simp
      · obtain ⟨action, is_blocking_move, explore⟩ := act
        dsimp only
        have hmem : g.grid action.1 action.2 = Cell.Empty := by
          rcases choose_action_mem hca with hbl | hm
          · exact mem_available_moves_empty (find_blocking_move_mem hbl)
          · exact mem_available_moves_empty hm
        obtain ⟨hp2, hb2, hcount2⟩ := step_preserves g action hp hmem hb
        rcases update_q_value ag (board_state g) (fmtAction action)
            (stepReward (board_state g) (make_move g action.1 action.2).1
              (get_current_player g).marker is_blocking_move)
            (board_state (make_move g action.1 action.2).1) with _ | ag2
        · simp
        · apply ih rs ag2 (make_move g action.1 action.2).1 (sh ++ [board_state g])
            (ah ++ [fmtAction action]) (k + 1) hp2 hb2
          rw [List.length_append, hcount2, hlen]
          rfl

/-- C8: starting an episode from a fresh empty board with empty per-episode
histories, the defensive `assert!(state_history.len() > 2)` can never fire
(at terminal detection at least five half-moves, hence well over three
states, are always recorded); conversely, were the terminal branch ever
reached with fewer than three recorded states, it would abort the run with
exactly that assertion failure rather than continue. -/
theorem c8_assertion_safety :
    (∀ (p : Fin 2) (rs : Nat → Rand) (fuel : Nat) (ag : QLearningAgent) (k : Nat),
      episodeLoop rs fuel ag (Board.newWith p) [] [] k ≠ .error .assertionFailed) ∧
    (∀ (ag : QLearningAgent) (w : Option Cell) (pm : Cell) (sh ah : List String),
      sh.length < 3 → terminalUpdate ag w pm sh ah = .error .assertionFailed) := by
  constructor
  · intro p rs fuel ag k
    apply episodeLoop_no_assert fuel rs ag (Board.newWith p) [] [] k rfl
    · exact ⟨fun _ => ⟨show (0 : Nat) ≤ 0 from le_rfl, show (0 : Nat) ≤ 0 + 1 by omega⟩,
        fun _ => ⟨show (0 : Nat) ≤ 0 from le_rfl, show (0 : Nat) ≤ 0 + 1 by omega⟩⟩
    · rfl
  · intro ag w pm sh ah hlen
    rw [terminalUpdate, if_neg (by omega)]

/-- Witness for C8: a concrete fresh-board run is not an assertion
failure, and a concrete short-history terminal call is one. -/
theorem c8_assertion_safety_witness :
    episodeLoop (fun _ => ⟨0, 0⟩) 3 agTrainW (Board.newWith 0) [] [] 0
        ≠ .error .assertionFailed ∧
    terminalUpdate agTrainW none Cell.X [] [] = .error .assertionFailed :=
  ⟨c8_assertion_safety.1 0 (fun _ => ⟨0, 0⟩) 3 agTrainW 0,
   c8_assertion_safety.2 agTrainW none Cell.X [] [] (by decide)⟩

end QTTT
